import Mathlib

/-!
Shallow embedding of the core of this repository: the single-flight cache
adapter of src/util/CacheAdapter.h and the memory-mapped vector family of
src/util/MmapVector.h, together with proofs about their operations.

Machinery that the sources only declare (the hash map, the mutex wrapper,
the wrapped eviction cache, and the out-of-line MmapVector implementation)
is modelled explicitly; each such definition carries a doc comment saying
what it stands for.
-/

namespace QleverSpec

/-- Lookup in an association list; models reads of ad_utility::HashMap
(HashMap::contains and the read side of operator[]). -/
def alookup {K A : Type} [DecidableEq K] : List (K × A) → K → Option A
  | [], _ => none
  | (k, a) :: t, q => if q = k then some a else alookup t q

/-- Insert-or-assign on an association list; models writes through
HashMap::operator[]. -/
def aset {K A : Type} [DecidableEq K] : List (K × A) → K → A → List (K × A)
  | [], q, a => [(q, a)]
  | (k, b) :: t, q, a => if q = k then (q, a) :: t else (k, b) :: aset t q a

/-- Erase a key from an association list; models HashMap::erase. -/
def aerase {K A : Type} [DecidableEq K] : List (K × A) → K → List (K × A)
  | [], _ => []
  | (k, b) :: t, q => if q = k then t else (k, b) :: aerase t q

/-- The keys of an association list are pairwise distinct; every state a
real hash map can be in satisfies this. -/
def nodupKeys {K A : Type} (l : List (K × A)) : Prop := (l.map Prod.fst).Nodup

instance nodupKeysDecidable {K A : Type} [DecidableEq K] (l : List (K × A)) :
    Decidable (nodupKeys l) :=
  List.nodupDecidable (l.map Prod.fst)

namespace SingleFlight

/-- Identity of a std::shared_ptr value object: two handles with the same
Ptr reference the same underlying shared value object. -/
abbrev Ptr := Nat

/-- Modelled from the spec: the wrapped eviction cache is an external
collaborator whose implementation is not among the sources; spec section 6
gives its capability surface (contains, containsPinnedIncludingUpgrade,
indexed read returning a shared read-only value, insert). We model it as an
association list from keys to shared values together with the set of keys
currently pinned in it. -/
structure Cache (K : Type) where
  entries : List (K × Ptr)
  pinnedKeys : List K
deriving DecidableEq

variable {K V : Type} [DecidableEq K]

/-- Cache::contains from the capability surface. -/
def Cache.contains (c : Cache K) (k : K) : Bool :=
  (alookup c.entries k).isSome

/-- Cache::containsPinnedIncludingUpgrade from the capability surface:
a pinned-aware lookup that only reports keys pinned in the cache. -/
def Cache.containsPinnedIncludingUpgrade (c : Cache K) (k : K) : Bool :=
  decide (k ∈ c.pinnedKeys)

/-- The indexed read of the cache, s._cache[key]. -/
def Cache.get (c : Cache K) (k : K) : Ptr :=
  (alookup c.entries k).getD 0

/-- Cache::insert from the capability surface. -/
def Cache.insert (c : Cache K) (k : K) (p : Ptr) : Cache K :=
  { c with entries := aset c.entries k p }

/-- The shared state CacheAdapter::S: the wrapped cache plus the hash map
_inProgress of values currently being computed, where the Bool tells
whether this result will be pinned in the cache. The heap component maps
each shared-pointer identity to the current contents of the pointed-to
value, and nextPtr is the next fresh identity that make_shared hands out. -/
structure AdapterState (K V : Type) where
  cache : Cache K
  inProgress : List (K × (Bool × Ptr))
  heap : List (Ptr × V)
  nextPtr : Ptr
deriving DecidableEq

/-- TryEmplaceResult: the key together with the pair _val holding the
writable handle (null unless this caller must compute the value) and the
read-only handle. -/
structure Res (K : Type) where
  key : K
  todo : Option Ptr
  done : Ptr
deriving DecidableEq

/-- The error raised by the unimplemented pinned-insert branch of
CacheAdapter::Action. -/
inductive AdapterError where
  | notImplemented
deriving DecidableEq

/-- CacheAdapter::tryEmplaceImpl: under the adapter lock, check the cache
(with the pinned-aware lookup when a pinned entry was requested); when
contained, hand back the cached value; else when the key is in flight,
merge the requested pin flag into the entry by logical OR and hand back the
in-flight value; else construct a fresh value from the constructor
arguments, register it in the in-flight map and hand back both handles. -/
def tryEmplaceImpl (pinned : Bool) (key : K) (s : AdapterState K V) (newVal : V) :
    Res K × AdapterState K V :=
  let contained := if pinned then s.cache.containsPinnedIncludingUpgrade key
                   else s.cache.contains key
  if contained then
    (⟨key, none, s.cache.get key⟩, s)
  else
    match alookup s.inProgress key with
    | some (b, p) =>
        (⟨key, none, p⟩, { s with inProgress := aset s.inProgress key (b || pinned, p) })
    | none =>
        let p := s.nextPtr
        (⟨key, some p, p⟩,
          { s with
            inProgress := aset s.inProgress key (pinned, p),
            heap := aset s.heap p newVal,
            nextPtr := p + 1 })

/-- CacheAdapter::tryEmplace, the public entry point: forwards to
tryEmplaceImpl with pinned set to false. -/
def tryEmplace (key : K) (s : AdapterState K V) (newVal : V) :
    Res K × AdapterState K V :=
  tryEmplaceImpl false key s newVal

/-- CacheAdapter::Action::operator(): under the adapter lock, apply the
configured post-processing action to the shared value, read the pinned flag
of the in-flight entry (through HashMap::operator[], which yields false for
an absent key), then either raise the not-implemented error (pinned) or
insert into the wrapped cache and erase the in-flight entry (unpinned).
The C++ exception aborts the body before the erase, so the returned state
pairs the fields as they stand when the error escapes. -/
def finishAction [Inhabited V] (onFinished : V → V) (k : K) (p : Ptr)
    (s : AdapterState K V) : AdapterState K V × Option AdapterError :=
  let s1 := { s with heap := aset s.heap p (onFinished ((alookup s.heap p).getD default)) }
  let pinned := ((alookup s1.inProgress k).getD (false, 0)).1
  if pinned then
    (s1, some AdapterError.notImplemented)
  else
    let s2 := { s1 with cache := s1.cache.insert k p }
    ({ s2 with inProgress := aerase s2.inProgress k }, none)

/-- TryEmplaceResult::finish: invokes the completion action only when this
result owns the writable handle. -/
def Res.finish [Inhabited V] (onFinished : V → V) (r : Res K)
    (s : AdapterState K V) : AdapterState K V × Option AdapterError :=
  match r.todo with
  | none => (s, none)
  | some p => finishAction onFinished r.key p s

/-- Every in-flight entry of the state is unpinned. -/
def allUnpinned (s : AdapterState K V) : Bool :=
  s.inProgress.all (fun e => e.2.1 == false)

/-- The invariant of the shared state: no key is simultaneously in the
wrapped cache and in the in-flight map. -/
def disjointB (s : AdapterState K V) : Bool :=
  s.inProgress.all (fun e => !(s.cache.contains e.1))

/-- Replace the pinned-key component of the wrapped cache, leaving
everything else of the state untouched. -/
def withPinned (s : AdapterState K V) (pk : List K) : AdapterState K V :=
  { s with cache := { s.cache with pinnedKeys := pk } }

/-- An operation against the public interface of the adapter. -/
inductive Op (K V : Type) where
  | emplace : K → V → Op K V
  | finishOp : Res K → Op K V

/-- Run one public operation against the shared state. -/
def runOp [Inhabited V] (onFinished : V → V) (s : AdapterState K V) :
    Op K V → AdapterState K V
  | Op.emplace k v => (tryEmplace k s v).2
  | Op.finishOp r => (Res.finish onFinished r s).1

/-- Run a sequence of public operations against the shared state. -/
def runOps [Inhabited V] (onFinished : V → V) (s : AdapterState K V)
    (ops : List (Op K V)) : AdapterState K V :=
  ops.foldl (runOp onFinished) s

/-- The state of a freshly constructed adapter: empty cache, no in-flight
computations. -/
def initialState (K V : Type) : AdapterState K V :=
  ⟨⟨[], []⟩, [], [], 0⟩

end SingleFlight

namespace Mmap

/-- Access patterns advised to the operating system,
src/util/MmapVector.h line 66. -/
inductive AccessPattern where
  | none
  | random
  | sequential
deriving DecidableEq

/-- The errors of the mapped-array family: UninitializedArrayException,
InvalidFileException (src/util/MmapVector.h lines 22 to 35) and the
std::out_of_range raised by the checked accessor. -/
inductive MmapError where
  | uninitializedArray
  | invalidFile
  | outOfRange
deriving DecidableEq

/-- VecInfo, src/util/MmapVector.h lines 55 to 58. -/
structure VecInfo where
  capacity : Nat
  bytesize : Nat
deriving DecidableEq

/-- We will never have less than this capacity,
src/util/MmapVector.h line 137. -/
def MinCapacity : Nat := 100

/-- Format constant, src/util/MmapVector.h line 278. -/
def MagicNumber : Nat := 7601577

/-- Format constant, src/util/MmapVector.h line 279. -/
def Version : Nat := 0

/-- Handle of MmapVector: the mapping (none when closed, otherwise the list
of element slots of the mapped region), the logical element count _size,
the reserved element count _capacity, the mapped byte count _bytesize, the
backing file name and the advised access pattern
(src/util/MmapVector.h lines 271 to 276). -/
structure MmapVector (T : Type) where
  ptr : Option (List T)
  size : Nat
  capacity : Nat
  bytesize : Nat
  filename : String
  pattern : AccessPattern
deriving DecidableEq

/-- MmapVector::throwIfUninitialized, src/util/MmapVector.h lines 225 to
229: raise the uninitialized-array error when the mapping is null. -/
def MmapVector.throwIfUninitialized {T : Type} (v : MmapVector T) :
    Except MmapError Unit :=
  if v.ptr.isNone then Except.error MmapError.uninitializedArray
  else Except.ok ()

/-- MmapVector::operator[], src/util/MmapVector.h lines 101 to 108: the
uninitialized guard, then an unchecked read of the mapped region. -/
def MmapVector.opIndex {T : Type} [Inhabited T] (v : MmapVector T) (idx : Nat) :
    Except MmapError T :=
  match v.throwIfUninitialized with
  | Except.error e => Except.error e
  | Except.ok _ => Except.ok ((v.ptr.getD []).getD idx default)

/-- MmapVector::at, src/util/MmapVector.h lines 111 to 127: the
uninitialized guard, then a bounds check of idx against _size, then the
read. -/
def MmapVector.atIdx {T : Type} [Inhabited T] (v : MmapVector T) (idx : Nat) :
    Except MmapError T :=
  match v.throwIfUninitialized with
  | Except.error e => Except.error e
  | Except.ok _ =>
      if idx ≥ v.size then Except.error MmapError.outOfRange
      else Except.ok ((v.ptr.getD []).getD idx default)

/-- The system page size; mmap handles only multiples of it. We fix the
usual 4096 bytes. -/
def pageSize : Nat := 4096

/-- Modelled from the spec: MmapVector::convertArraySizeToFileSize is
declared at src/util/MmapVector.h line 256 but implemented in
MmapVectorImpl.h, which is not among the sources. Spec section 4.1, Sizing
function: compute targetSize times the element size and round up to the
smallest multiple of the page size that is greater or equal; this yields
_bytesize, and dividing back by the element size yields the realized
_capacity. -/
def convertArraySizeToFileSize (elementSize targetSize : Nat) : VecInfo :=
  let bytes := targetSize * elementSize
  let bs := ((bytes + pageSize - 1) / pageSize) * pageSize
  ⟨bs / elementSize, bs⟩

/-- Modelled from the spec: MmapVector::adaptCapacity is declared at
src/util/MmapVector.h line 262 but implemented in MmapVectorImpl.h, which
is not among the sources. Spec section 4.1, Growth: compute the new
_bytesize via the sizing function, truncate the file to the new byte size
and remap; the remapped region holds the realized capacity worth of element
slots, preserving the existing contents up to that capacity. -/
def MmapVector.adaptCapacity {T : Type} [Inhabited T] (elementSize : Nat)
    (v : MmapVector T) (newCapacity : Nat) : MmapVector T :=
  let info := convertArraySizeToFileSize elementSize newCapacity
  { v with
    capacity := info.capacity,
    bytesize := info.bytesize,
    ptr := v.ptr.map
      (fun d => d.take info.capacity ++ List.replicate (info.capacity - d.length) default) }

/-- MmapVector::reserve, src/util/MmapVector.h lines 205 to 209: grow via
adaptCapacity only when newCapacity exceeds the current capacity. -/
def MmapVector.reserve {T : Type} [Inhabited T] (elementSize : Nat)
    (v : MmapVector T) (newCapacity : Nat) : MmapVector T :=
  if newCapacity > v.capacity then v.adaptCapacity elementSize newCapacity else v

/-- Modelled from the spec: the growth policy used by push_back
(implemented in MmapVectorImpl.h, not among the sources; the header fixes
ResizeFactor = 1.5 at line 277 and MinCapacity = 100 at line 137). Spec
section 4.1, Growth: a multiplicative factor of 1.5 applied to the current
capacity, floored at the fixed minimum capacity. -/
def grownCapacity (cap : Nat) : Nat :=
  max MinCapacity (cap * 3 / 2)

/-- Modelled from the spec: MmapVector::push_back is declared at
src/util/MmapVector.h lines 213 to 214 and implemented in MmapVectorImpl.h,
which is not among the sources. Spec section 4.1, Accessors: grow via the
1.5 policy when size equals capacity, then write the element and increment
size. -/
def MmapVector.push_back {T : Type} [Inhabited T] (elementSize : Nat)
    (v : MmapVector T) (el : T) : MmapVector T :=
  let v1 := if v.size == v.capacity
            then v.adaptCapacity elementSize (grownCapacity v.capacity)
            else v
  { v1 with
    ptr := v1.ptr.map (fun d => d.set v1.size el),
    size := v1.size + 1 }

/-- Modelled from the spec: the on-disk layout written by
MmapVector::writeMetaDataToEnd and read back by readMetaDataFromEnd (both
implemented in MmapVectorImpl.h, not among the sources). Spec section 6:
a data region of bytesize bytes followed by a trailer holding size,
capacity, bytesize, the magic number and the version. -/
structure MmapFile (T : Type) where
  data : List T
  trailerSize : Nat
  trailerCapacity : Nat
  trailerBytesize : Nat
  trailerMagic : Nat
  trailerVersion : Nat
deriving DecidableEq

/-- Modelled from the spec: MmapVector::open with a size and a fill value
is declared at src/util/MmapVector.h lines 162 to 163 and implemented in
MmapVectorImpl.h, which is not among the sources. Spec section 4.1,
Opening: truncate or create the file to the computed byte size, map
writable, fill all count elements with the given value and set
size = capacity = count. -/
def MmapVector.openWithFill {T : Type} (elementSize : Nat) (count : Nat)
    (defaultValue : T) (filename : String) : MmapVector T :=
  let info := convertArraySizeToFileSize elementSize count
  { ptr := some (List.replicate count defaultValue),
    size := count, capacity := count, bytesize := info.bytesize,
    filename := filename, pattern := AccessPattern.none }

/-- Modelled from the spec: MmapVector::close is declared at
src/util/MmapVector.h line 193 and implemented in MmapVectorImpl.h, which
is not among the sources. Spec section 4.1, Closing: write the current
size, capacity, bytesize, magic and version trailer to the end of the
file, unmap, and reset the handle to the unopened state. Returns the
written file together with the reset handle. -/
def MmapVector.close {T : Type} (v : MmapVector T) : MmapFile T × MmapVector T :=
  (⟨v.ptr.getD [], v.size, v.capacity, v.bytesize, MagicNumber, Version⟩,
   { ptr := none, size := 0, capacity := 0, bytesize := 0,
     filename := v.filename, pattern := v.pattern })

/-- Modelled from the spec: MmapVector::open with ReuseTag is declared at
src/util/MmapVector.h lines 188 to 189 and implemented in MmapVectorImpl.h,
which is not among the sources. Spec section 4.1, Opening, reuse existing:
map the existing file read-write, trusting the on-disk trailer for size,
capacity and bytesize after validating magic and version; a mismatch
raises the format-invalid error. -/
def openReuse {T : Type} (f : MmapFile T) (filename : String) :
    Except MmapError (MmapVector T) :=
  if f.trailerMagic == MagicNumber && f.trailerVersion == Version then
    Except.ok
      { ptr := some f.data, size := f.trailerSize, capacity := f.trailerCapacity,
        bytesize := f.trailerBytesize, filename := filename,
        pattern := AccessPattern.none }
  else Except.error MmapError.invalidFile

/-- Create a fresh empty array on the given file and push the given
elements one by one. -/
def buildVector {T : Type} [Inhabited T] (elementSize : Nat) (elems : List T)
    (filename : String) : MmapVector T :=
  elems.foldl (fun v el => v.push_back elementSize el)
    (MmapVector.openWithFill elementSize 0 default filename)

/-- Whether the close call inside the MmapVectorTmp destructor raised. -/
inductive CloseOutcome where
  | ok
  | threw
deriving DecidableEq

/-- Modelled from the spec: ad_utility::terminateIfThrows comes from
util/ExceptionHandling.h, which is not among the sources. Per spec sections
4.3 and 7, any exception during a destructor-time close is caught and
reported through a dedicated termination-safe path and never propagates out
of the destructor. The returned Bool tells whether an exception escaped the
wrapper, which therefore is never the case. -/
def terminateIfThrows (_outcome : CloseOutcome) : Bool :=
  false

/-- Modelled from the spec: the move operations of MmapVector are
implemented in MmapVectorImpl.h, which is not among the sources; the header
declares the resource fields with ResetWhenMoved
(src/util/MmapVector.h lines 271 to 274), and spec section 5 says that a
move transfers exclusive ownership and the moved-from handle becomes inert,
its resource fields reset to empty or null. Returns the pair of the
moved-to handle and the moved-from handle. -/
def MmapVector.moveFrom {T : Type} (v : MmapVector T) :
    MmapVector T × MmapVector T :=
  (v, { ptr := none, size := 0, capacity := 0, bytesize := 0,
        filename := "", pattern := v.pattern })

/-- The observable effect of running the MmapVectorTmp destructor: whether
an exception escaped it, and which backing file it deleted, if any. -/
structure DtorEffect where
  exceptionEscaped : Bool
  deletedFile : Option String
deriving DecidableEq

/-- The destructor of MmapVectorTmp, src/util/MmapVector.h lines 383 to
392: remember the file name, run close through the termination-safe
wrapper, and delete the backing file exactly when the remembered name is
non-empty. -/
def mmapVectorTmpDtor {T : Type} (v : MmapVector T) (outcome : CloseOutcome) :
    DtorEffect :=
  let oldFilename := v.filename
  let escaped := terminateIfThrows outcome
  { exceptionEscaped := escaped,
    deletedFile := if oldFilename = "" then none else some oldFilename }

end Mmap

/-- A fresh adapter state over Nat keys and Nat values, used to evaluate
the theorems below on concrete inputs. -/
def sampleInit : SingleFlight.AdapterState Nat Nat :=
  SingleFlight.initialState Nat Nat

/-- A concrete adapter state whose single in-flight entry for key 0 is
pinned and holds the shared value with identity 5. -/
def samplePinned : SingleFlight.AdapterState Nat Nat :=
  ⟨⟨[], []⟩, [(0, (true, 5))], [(5, 42)], 6⟩

/-- A concrete adapter state whose single in-flight entry for key 0 is
unpinned and holds the shared value with identity 5. -/
def sampleUnpinned : SingleFlight.AdapterState Nat Nat :=
  ⟨⟨[], []⟩, [(0, (false, 5))], [(5, 42)], 6⟩

/-- The result handed to the caller that must complete key 0 with the
shared value of identity 5. -/
def sampleRes : SingleFlight.Res Nat :=
  ⟨0, some 5, 5⟩

/-- A closed mapped-array handle over Nat elements. -/
def closedVec : Mmap.MmapVector Nat :=
  ⟨none, 0, 0, 0, "", Mmap.AccessPattern.none⟩

/-- An open mapped-array handle over Nat elements holding two elements. -/
def openVec : Mmap.MmapVector Nat :=
  ⟨some [10, 20], 2, 2, 4096, "f", Mmap.AccessPattern.none⟩

theorem alookup_cons {K A : Type} [DecidableEq K] (k : K) (a : A) (t : List (K × A)) (q : K) :
    alookup ((k, a) :: t) q = if q = k then some a else alookup t q := by
  simp [alookup]

theorem alookup_aset_self {K A : Type} [DecidableEq K] (l : List (K × A)) (k : K) (a : A) :
    alookup (aset l k a) k = some a := by
  induction l with
  | nil => simp [aset, alookup_cons]
  | cons h t ih =>
    obtain ⟨k0, b⟩ := h
    by_cases hk : k = k0
    · simp [aset, hk, alookup_cons]
    · simp [aset, hk, alookup_cons, ih]

theorem alookup_aset_ne {K A : Type} [DecidableEq K] (l : List (K × A)) (k q : K) (a : A)
    (h : q ≠ k) : alookup (aset l k a) q = alookup l q := by
  induction l with
  | nil => simp [aset, alookup_cons, h]
  | cons hd t ih =>
    obtain ⟨k0, b⟩ := hd
    by_cases hk : k = k0
    · subst hk
      simp [aset, alookup_cons, h]
    · by_cases hq : q = k0
      · simp [aset, hk, alookup_cons, hq]
      · simp [aset, hk, alookup_cons, hq, ih]

theorem aset_cons_eq {K A : Type} [DecidableEq K] (k0 k : K) (b a : A) (t : List (K × A))
    (h : k = k0) : aset ((k0, b) :: t) k a = (k, a) :: t := by
  simp [aset, h]

theorem aset_cons_ne {K A : Type} [DecidableEq K] (k0 k : K) (b a : A) (t : List (K × A))
    (h : k ≠ k0) : aset ((k0, b) :: t) k a = (k0, b) :: aset t k a := by
  simp [aset, h]

theorem aerase_cons_eq {K A : Type} [DecidableEq K] (k0 k : K) (b : A) (t : List (K × A))
    (h : k = k0) : aerase ((k0, b) :: t) k = t := by
  simp [aerase, h]

theorem aerase_cons_ne {K A : Type} [DecidableEq K] (k0 k : K) (b : A) (t : List (K × A))
    (h : k ≠ k0) : aerase ((k0, b) :: t) k = (k0, b) :: aerase t k := by
  simp [aerase, h]

theorem mem_aset {K A : Type} [DecidableEq K] (l : List (K × A)) (k : K) (a : A)
    (e : K × A) (he : e ∈ aset l k a) : e = (k, a) ∨ e ∈ l := by
  induction l with
  | nil => simpa [aset] using he
  | cons hd t ih =>
    obtain ⟨k0, b⟩ := hd
    by_cases hk : k = k0
    · rw [aset_cons_eq k0 k b a t hk, List.mem_cons] at he
      rcases he with h | h
      · exact Or.inl h
      · exact Or.inr (List.mem_cons_of_mem _ h)
    · rw [aset_cons_ne k0 k b a t hk, List.mem_cons] at he
      rcases he with h | h
      · exact Or.inr (by simp [h])
      · rcases ih h with h1 | h1
        · exact Or.inl h1
        · exact Or.inr (List.mem_cons_of_mem _ h1)

theorem mem_aerase {K A : Type} [DecidableEq K] (l : List (K × A)) (k : K)
    (e : K × A) (he : e ∈ aerase l k) : e ∈ l := by
  induction l with
  | nil => simp [aerase] at he
  | cons hd t ih =>
    obtain ⟨k0, b⟩ := hd
    by_cases hk : k = k0
    · rw [aerase_cons_eq k0 k b t hk] at he
      exact List.mem_cons_of_mem _ he
    · rw [aerase_cons_ne k0 k b t hk, List.mem_cons] at he
      rcases he with h | h
      · simp [h]
      · exact List.mem_cons_of_mem _ (ih h)

theorem alookup_mem {K A : Type} [DecidableEq K] (l : List (K × A)) (k : K) (a : A)
    (h : alookup l k = some a) : (k, a) ∈ l := by
  induction l with
  | nil => simp [alookup] at h
  | cons hd t ih =>
    obtain ⟨k0, b⟩ := hd
    rw [alookup_cons] at h
    by_cases hk : k = k0
    · simp only [if_pos hk] at h
      obtain rfl : b = a := by injection h
      simp [hk]
    · simp only [if_neg hk] at h
      exact List.mem_cons_of_mem _ (ih h)

theorem alookup_eq_none_of_not_mem {K A : Type} [DecidableEq K] (l : List (K × A)) (k : K)
    (h : k ∉ l.map Prod.fst) : alookup l k = none := by
  induction l with
  | nil => simp [alookup]
  | cons hd t ih =>
    obtain ⟨k0, b⟩ := hd
    simp only [List.map_cons, List.mem_cons] at h
    push_neg at h
    rw [alookup_cons, if_neg h.1]
    exact ih h.2

theorem mem_keys_aset {K A : Type} [DecidableEq K] (l : List (K × A)) (k : K) (a : A)
    (q : K) (hq : q ∈ (aset l k a).map Prod.fst) : q ∈ l.map Prod.fst ∨ q = k := by
  simp only [List.mem_map] at hq
  obtain ⟨e, he, rfl⟩ := hq
  rcases mem_aset l k a e he with h | h
  · exact Or.inr (by simp [h])
  · exact Or.inl (List.mem_map_of_mem _ h)

theorem nodup_aset {K A : Type} [DecidableEq K] (l : List (K × A)) (k : K) (a : A)
    (h : nodupKeys l) : nodupKeys (aset l k a) := by
  induction l with
  | nil => simp [aset, nodupKeys]
  | cons hd t ih =>
    obtain ⟨k0, b⟩ := hd
    unfold nodupKeys at h
    simp only [List.map_cons, List.nodup_cons] at h
    by_cases hk : k = k0
    · unfold nodupKeys
      rw [aset_cons_eq k0 k b a t hk]
      simp only [List.map_cons, List.nodup_cons]
      rw [hk]
      exact h
    · unfold nodupKeys
      rw [aset_cons_ne k0 k b a t hk]
      simp only [List.map_cons, List.nodup_cons]
      refine ⟨?_, ih h.2⟩
      intro hmem
      rcases mem_keys_aset t k a k0 hmem with h1 | h1
      · exact h.1 h1
      · exact hk (h1.symm)

theorem keys_aerase_sublist {K A : Type} [DecidableEq K] (l : List (K × A)) (k : K) :
    ((aerase l k).map Prod.fst).Sublist (l.map Prod.fst) := by
  induction l with
  | nil => simp [aerase]
  | cons hd t ih =>
    obtain ⟨k0, b⟩ := hd
    by_cases hk : k = k0
    · rw [aerase_cons_eq k0 k b t hk]
      simp only [List.map_cons]
      exact List.sublist_cons_of_sublist _ (List.Sublist.refl _)
    · rw [aerase_cons_ne k0 k b t hk]
      simp only [List.map_cons]
      exact List.Sublist.cons₂ _ ih

theorem nodup_aerase {K A : Type} [DecidableEq K] (l : List (K × A)) (k : K)
    (h : nodupKeys l) : nodupKeys (aerase l k) :=
  List.Nodup.sublist (keys_aerase_sublist l k) h

theorem alookup_aerase_self {K A : Type} [DecidableEq K] (l : List (K × A)) (k : K)
    (h : nodupKeys l) : alookup (aerase l k) k = none := by
  induction l with
  | nil => simp [aerase, alookup]
  | cons hd t ih =>
    obtain ⟨k0, b⟩ := hd
    unfold nodupKeys at h
    simp only [List.map_cons, List.nodup_cons] at h
    by_cases hk : k = k0
    · rw [aerase_cons_eq k0 k b t hk, hk]
      exact alookup_eq_none_of_not_mem t k0 h.1
    · rw [aerase_cons_ne k0 k b t hk, alookup_cons, if_neg hk]
      exact ih h.2

open SingleFlight in
theorem containedFlag_eq_false {K V : Type} [DecidableEq K] (pinned : Bool)
    (s : AdapterState K V) (k : K)
    (hc : s.cache.contains k = false)
    (hp : s.cache.containsPinnedIncludingUpgrade k = false) :
    (if pinned then s.cache.containsPinnedIncludingUpgrade k
     else s.cache.contains k) = false := by
  cases pinned <;> simp [hc, hp]

open SingleFlight in
theorem tryEmplaceImpl_cached {K V : Type} [DecidableEq K] (pinned : Bool) (k : K)
    (s : AdapterState K V) (v : V)
    (hc : (if pinned then s.cache.containsPinnedIncludingUpgrade k
           else s.cache.contains k) = true) :
    tryEmplaceImpl pinned k s v = (⟨k, none, s.cache.get k⟩, s) := by
  simp only [tryEmplaceImpl, hc, if_true]

open SingleFlight in
theorem tryEmplaceImpl_inflight {K V : Type} [DecidableEq K] (pinned : Bool) (k : K)
    (s : AdapterState K V) (v : V) (b : Bool) (p : Ptr)
    (hc : (if pinned then s.cache.containsPinnedIncludingUpgrade k
           else s.cache.contains k) = false)
    (hip : alookup s.inProgress k = some (b, p)) :
    tryEmplaceImpl pinned k s v
      = (⟨k, none, p⟩, { s with inProgress := aset s.inProgress k (b || pinned, p) }) := by
  simp only [tryEmplaceImpl, hc, Bool.false_eq_true, if_false, hip]

open SingleFlight in
theorem tryEmplaceImpl_new {K V : Type} [DecidableEq K] (pinned : Bool) (k : K)
    (s : AdapterState K V) (v : V)
    (hc : (if pinned then s.cache.containsPinnedIncludingUpgrade k
           else s.cache.contains k) = false)
    (hip : alookup s.inProgress k = none) :
    tryEmplaceImpl pinned k s v
      = (⟨k, some s.nextPtr, s.nextPtr⟩,
         { s with
           inProgress := aset s.inProgress k (pinned, s.nextPtr),
           heap := aset s.heap s.nextPtr v,
           nextPtr := s.nextPtr + 1 }) := by
  simp only [tryEmplaceImpl, hc, Bool.false_eq_true, if_false, hip]

open SingleFlight in
theorem tryEmplaceImpl_cache_unchanged {K V : Type} [DecidableEq K] (pinned : Bool)
    (k : K) (s : AdapterState K V) (v : V) :
    (tryEmplaceImpl pinned k s v).2.cache = s.cache := by
  rcases Bool.eq_false_or_eq_true
      (if pinned then s.cache.containsPinnedIncludingUpgrade k
       else s.cache.contains k) with hif | hif
  · rw [tryEmplaceImpl_cached pinned k s v hif]
  · cases hip : alookup s.inProgress k with
    | none => rw [tryEmplaceImpl_new pinned k s v hif hip]
    | some bp =>
        obtain ⟨b, p⟩ := bp
        rw [tryEmplaceImpl_inflight pinned k s v b p hif hip]

open SingleFlight in
theorem finishAction_eq_pinned {K V : Type} [DecidableEq K] [Inhabited V]
    (onFinished : V → V) (k : K) (p : Ptr) (s : AdapterState K V) (b : Bool) (q : Ptr)
    (hip : alookup s.inProgress k = some (b, q)) (hb : b = true) :
    finishAction onFinished k p s
      = ({ s with heap := aset s.heap p (onFinished ((alookup s.heap p).getD default)) },
         some AdapterError.notImplemented) := by
  simp only [finishAction, hip, Option.getD_some, hb, if_true]

open SingleFlight in
theorem finishAction_eq_unpinned {K V : Type} [DecidableEq K] [Inhabited V]
    (onFinished : V → V) (k : K) (p : Ptr) (s : AdapterState K V)
    (hflag : ((alookup s.inProgress k).getD (false, 0)).1 = false) :
    finishAction onFinished k p s
      = ({ s with
           heap := aset s.heap p (onFinished ((alookup s.heap p).getD default)),
           cache := s.cache.insert k p,
           inProgress := aerase s.inProgress k }, none) := by
  simp only [finishAction, hflag, Bool.false_eq_true, if_false]

open SingleFlight in
theorem tryEmplace_def {K V : Type} [DecidableEq K] (k : K) (s : AdapterState K V)
    (v : V) : tryEmplace k s v = tryEmplaceImpl false k s v := rfl

open SingleFlight in
theorem finish_some {K V : Type} [DecidableEq K] [Inhabited V] (onFinished : V → V)
    (k : K) (p d : Ptr) (s : AdapterState K V) :
    Res.finish onFinished ⟨k, some p, d⟩ s = finishAction onFinished k p s := rfl

open SingleFlight in
theorem contains_eq_false_of_ne_true {K : Type} [DecidableEq K] (c : Cache K) (k : K)
    (h : ¬c.contains k = true) : c.contains k = false := by
  cases h2 : c.contains k
  · rfl
  · exact absurd h2 h

/-- C1: single-flight guarantee of tryEmplace: for every adapter state and
every key, the public tryEmplace returns a non-empty writable handle
exactly when the key is in neither the wrapped cache nor the in-flight map;
in exactly that case the key gets registered in the in-flight map (with the
cache untouched), so a subsequent tryEmplace for the same key before finish
returns an empty writable handle together with a read-only handle
referencing the same shared value object. -/
theorem tryEmplace_single_flight {K V : Type} [DecidableEq K]
    (s : SingleFlight.AdapterState K V) (k : K) (v w : V) :
    ((SingleFlight.tryEmplace k s v).1.todo.isSome = true
      ↔ (s.cache.contains k = false ∧ alookup s.inProgress k = none))
    ∧ (s.cache.contains k = false → alookup s.inProgress k = none →
        alookup (SingleFlight.tryEmplace k s v).2.inProgress k
          = some (false, (SingleFlight.tryEmplace k s v).1.done)
        ∧ (SingleFlight.tryEmplace k s v).2.cache = s.cache
        ∧ (SingleFlight.tryEmplace k (SingleFlight.tryEmplace k s v).2 w).1.todo = none
        ∧ (SingleFlight.tryEmplace k (SingleFlight.tryEmplace k s v).2 w).1.done
          = (SingleFlight.tryEmplace k s v).1.done) := by
  constructor
  · rw [tryEmplace_def]
    by_cases hc : s.cache.contains k = true
    · rw [tryEmplaceImpl_cached false k s v hc]
      simp [hc]
    · have hc2 := contains_eq_false_of_ne_true s.cache k hc
      cases hip : alookup s.inProgress k with
      | none =>
          rw [tryEmplaceImpl_new false k s v hc2 hip]
          simp [hc2, hip]
      | some bp =>
          obtain ⟨b, p⟩ := bp
          rw [tryEmplaceImpl_inflight false k s v b p hc2 hip]
          simp [hip]
  · intro hc hip
    rw [tryEmplace_def, tryEmplaceImpl_new false k s v hc hip]
    refine ⟨alookup_aset_self s.inProgress k (false, s.nextPtr), rfl, ?_⟩
    show (SingleFlight.tryEmplaceImpl false k
        { s with inProgress := aset s.inProgress k (false, s.nextPtr),
                 heap := aset s.heap s.nextPtr v, nextPtr := s.nextPtr + 1 } w).1.todo
          = none
      ∧ (SingleFlight.tryEmplaceImpl false k
        { s with inProgress := aset s.inProgress k (false, s.nextPtr),
                 heap := aset s.heap s.nextPtr v, nextPtr := s.nextPtr + 1 } w).1.done
          = s.nextPtr
    rw [tryEmplaceImpl_inflight false k
        { s with inProgress := aset s.inProgress k (false, s.nextPtr),
                 heap := aset s.heap s.nextPtr v, nextPtr := s.nextPtr + 1 }
        w false s.nextPtr hc
        (alookup_aset_self s.inProgress k (false, s.nextPtr))]
    exact ⟨rfl, rfl⟩

/-- Witness for C1 at the empty adapter state with key 0. -/
theorem tryEmplace_single_flight_w :
    sampleInit.cache.contains 0 = false
    ∧ alookup sampleInit.inProgress 0 = none
    ∧ (alookup (SingleFlight.tryEmplace 0 sampleInit 7).2.inProgress 0
        = some (false, (SingleFlight.tryEmplace 0 sampleInit 7).1.done)
      ∧ (SingleFlight.tryEmplace 0 sampleInit 7).2.cache = sampleInit.cache
      ∧ (SingleFlight.tryEmplace 0 (SingleFlight.tryEmplace 0 sampleInit 7).2 8).1.todo
          = none
      ∧ (SingleFlight.tryEmplace 0 (SingleFlight.tryEmplace 0 sampleInit 7).2 8).1.done
          = (SingleFlight.tryEmplace 0 sampleInit 7).1.done) :=
  ⟨by decide, by decide,
    (tryEmplace_single_flight sampleInit 0 7 8).2 (by decide) (by decide)⟩

/-- C2 counterexample: at the pinned in-flight entry for key 0, finish
raises the not-implemented error before reaching the erase, so key 0 is
still in the in-flight map afterwards, refuting the unconditional
removal. -/
theorem finish_unconditional_removal_cex :
    (SingleFlight.Res.finish id sampleRes samplePinned).2
      = some SingleFlight.AdapterError.notImplemented
    ∧ alookup (SingleFlight.Res.finish id sampleRes samplePinned).1.inProgress 0
      = some (true, 5) := by
  decide

/-- C2 (amended): finish removes the key from the in-flight map when the
entry is unpinned; when the entry is pinned, the not-implemented error is
raised before the removal, so the key stays in the in-flight map. In
either case tryEmplace itself never mutates the wrapped cache, so the
unpinned branch of finish remains the only mutation site of the wrapped
cache. -/
theorem finish_removal_amended {K V : Type} [DecidableEq K] [Inhabited V]
    (onFinished : V → V) (s : SingleFlight.AdapterState K V) (k : K) (b : Bool)
    (p : SingleFlight.Ptr)
    (hn : nodupKeys s.inProgress)
    (hip : alookup s.inProgress k = some (b, p)) :
    (b = false →
        (SingleFlight.Res.finish onFinished ⟨k, some p, p⟩ s).2 = none
        ∧ alookup (SingleFlight.Res.finish onFinished ⟨k, some p, p⟩ s).1.inProgress k
            = none)
    ∧ (b = true →
        (SingleFlight.Res.finish onFinished ⟨k, some p, p⟩ s).2
          = some SingleFlight.AdapterError.notImplemented
        ∧ alookup (SingleFlight.Res.finish onFinished ⟨k, some p, p⟩ s).1.inProgress k
            = some (true, p))
    ∧ (∀ (pinnedRequest : Bool) (k2 : K) (s2 : SingleFlight.AdapterState K V) (v2 : V),
        (SingleFlight.tryEmplaceImpl pinnedRequest k2 s2 v2).2.cache = s2.cache) := by
  refine ⟨?_, ?_, ?_⟩
  · intro hb
    subst hb
    have hflag : ((alookup s.inProgress k).getD (false, 0)).1 = false := by
      rw [hip]
      rfl
    rw [finish_some, finishAction_eq_unpinned onFinished k p s hflag]
    exact ⟨rfl, alookup_aerase_self s.inProgress k hn⟩
  · intro hb
    subst hb
    rw [finish_some, finishAction_eq_pinned onFinished k p s true p hip rfl]
    exact ⟨rfl, hip⟩
  · intro pinnedRequest k2 s2 v2
    exact tryEmplaceImpl_cache_unchanged pinnedRequest k2 s2 v2

/-- Witness for the amended C2 at the unpinned in-flight entry for key 0. -/
theorem finish_removal_amended_w :
    nodupKeys sampleUnpinned.inProgress
    ∧ alookup sampleUnpinned.inProgress 0 = some (false, 5)
    ∧ ((SingleFlight.Res.finish id ⟨0, some 5, 5⟩ sampleUnpinned).2 = none
       ∧ alookup (SingleFlight.Res.finish id ⟨0, some 5, 5⟩ sampleUnpinned).1.inProgress 0
           = none) :=
  ⟨by decide, by decide,
    (finish_removal_amended id sampleUnpinned 0 false 5 (by decide) (by decide)).1 rfl⟩

/-- C3: when the in-flight entry for the key is marked pinned at the time
finish runs, the action raises the not-implemented error and does not
insert into the wrapped cache; when it is unpinned, the action applies the
configured post-processing to the shared value and then inserts that value
into the wrapped cache. -/
theorem finish_pinned_vs_unpinned {K V : Type} [DecidableEq K] [Inhabited V]
    (onFinished : V → V) (s : SingleFlight.AdapterState K V) (k : K) (b : Bool)
    (p : SingleFlight.Ptr)
    (hip : alookup s.inProgress k = some (b, p)) :
    (b = true →
        (SingleFlight.finishAction onFinished k p s).2
          = some SingleFlight.AdapterError.notImplemented
        ∧ (SingleFlight.finishAction onFinished k p s).1.cache = s.cache)
    ∧ (b = false →
        (SingleFlight.finishAction onFinished k p s).2 = none
        ∧ alookup (SingleFlight.finishAction onFinished k p s).1.heap p
            = some (onFinished ((alookup s.heap p).getD default))
        ∧ (SingleFlight.finishAction onFinished k p s).1.cache
            = s.cache.insert k p) := by
  constructor
  · intro hb
    subst hb
    rw [finishAction_eq_pinned onFinished k p s true p hip rfl]
    exact ⟨rfl, rfl⟩
  · intro hb
    subst hb
    have hflag : ((alookup s.inProgress k).getD (false, 0)).1 = false := by
      rw [hip]
      rfl
    rw [finishAction_eq_unpinned onFinished k p s hflag]
    exact ⟨rfl, alookup_aset_self s.heap p _, rfl⟩

/-- Witness for C3 at the pinned in-flight entry for key 0. -/
theorem finish_pinned_vs_unpinned_w :
    alookup samplePinned.inProgress 0 = some (true, 5)
    ∧ ((SingleFlight.finishAction id 0 5 samplePinned).2
        = some SingleFlight.AdapterError.notImplemented
      ∧ (SingleFlight.finishAction id 0 5 samplePinned).1.cache
          = samplePinned.cache) :=
  ⟨by decide, (finish_pinned_vs_unpinned id samplePinned 0 true 5 (by decide)).1 rfl⟩

theorem fst_ne_of_mem_aerase {K A : Type} [DecidableEq K] (l : List (K × A)) (k : K)
    (e : K × A) (hn : nodupKeys l) (he : e ∈ aerase l k) : e.1 ≠ k := by
  induction l with
  | nil => simp [aerase] at he
  | cons hd t ih =>
    obtain ⟨k0, b⟩ := hd
    unfold nodupKeys at hn
    simp only [List.map_cons, List.nodup_cons] at hn
    by_cases hk : k = k0
    · rw [aerase_cons_eq k0 k b t hk] at he
      intro hek
      apply hn.1
      rw [← hk, ← hek]
      exact List.mem_map_of_mem Prod.fst he
    · rw [aerase_cons_ne k0 k b t hk, List.mem_cons] at he
      rcases he with h | h
      · rw [h]
        intro h2
        exact hk h2.symm
      · exact ih hn.2 h

open SingleFlight in
theorem contains_insert_ne {K : Type} [DecidableEq K] (c : Cache K) (k q : K)
    (p : Ptr) (h : q ≠ k) : (c.insert k p).contains q = c.contains q := by
  unfold Cache.insert Cache.contains
  rw [alookup_aset_ne c.entries k q p h]

open SingleFlight in
theorem disjointB_eq_true_iff {K V : Type} [DecidableEq K] (s : AdapterState K V) :
    disjointB s = true ↔ ∀ e ∈ s.inProgress, s.cache.contains e.1 = false := by
  unfold disjointB
  rw [List.all_eq_true]
  constructor
  · intro h e he
    have h2 := h e he
    simpa using h2
  · intro h e he
    simpa using h e he

/-- C4: invariant of the adapter's shared state: every key appears in at
most one of the wrapped cache and the in-flight map (with the keys of the
in-flight map pairwise distinct, as for a real hash map); this is
preserved by the public tryEmplace in all three of its cases and by
finish. -/
theorem adapter_invariant_preserved {K V : Type} [DecidableEq K] [Inhabited V]
    (s : SingleFlight.AdapterState K V) (k : K) (v : V) (onFinished : V → V)
    (r : SingleFlight.Res K)
    (hn : nodupKeys s.inProgress) (hd : SingleFlight.disjointB s = true) :
    (SingleFlight.disjointB (SingleFlight.tryEmplace k s v).2 = true
      ∧ nodupKeys (SingleFlight.tryEmplace k s v).2.inProgress)
    ∧ (SingleFlight.disjointB (SingleFlight.Res.finish onFinished r s).1 = true
      ∧ nodupKeys (SingleFlight.Res.finish onFinished r s).1.inProgress) := by
  have hd2 := (disjointB_eq_true_iff s).mp hd
  constructor
  · rw [tryEmplace_def]
    by_cases hc : s.cache.contains k = true
    · rw [tryEmplaceImpl_cached false k s v hc]
      exact ⟨hd, hn⟩
    · have hc2 := contains_eq_false_of_ne_true s.cache k hc
      cases hip : alookup s.inProgress k with
      | none =>
          rw [tryEmplaceImpl_new false k s v hc2 hip]
          constructor
          · refine (disjointB_eq_true_iff _).mpr ?_
            intro e he
            rcases mem_aset s.inProgress k (false, s.nextPtr) e he with h | h
            · rw [h]
              exact hc2
            · exact hd2 e h
          · exact nodup_aset s.inProgress k (false, s.nextPtr) hn
      | some bp =>
          obtain ⟨b, p⟩ := bp
          rw [tryEmplaceImpl_inflight false k s v b p hc2 hip]
          constructor
          · refine (disjointB_eq_true_iff _).mpr ?_
            intro e he
            rcases mem_aset s.inProgress k (b || false, p) e he with h | h
            · rw [h]
              exact hc2
            · exact hd2 e h
          · exact nodup_aset s.inProgress k (b || false, p) hn
  · cases hr : r.todo with
    | none =>
        have heq : SingleFlight.Res.finish onFinished r s = (s, none) := by
          unfold SingleFlight.Res.finish
          rw [hr]
        rw [heq]
        exact ⟨hd, hn⟩
    | some p =>
        have heq : SingleFlight.Res.finish onFinished r s
            = SingleFlight.finishAction onFinished r.key p s := by
          unfold SingleFlight.Res.finish
          rw [hr]
        rw [heq]
        cases hflag : ((alookup s.inProgress r.key).getD (false, 0)).1 with
        | false =>
            rw [finishAction_eq_unpinned onFinished r.key p s hflag]
            constructor
            · refine (disjointB_eq_true_iff _).mpr ?_
              intro e he
              have hne := fst_ne_of_mem_aerase s.inProgress r.key e hn he
              rw [contains_insert_ne s.cache r.key e.1 p hne]
              exact hd2 e (mem_aerase s.inProgress r.key e he)
            · exact nodup_aerase s.inProgress r.key hn
        | true =>
            cases hip : alookup s.inProgress r.key with
            | none =>
                rw [hip] at hflag
                simp at hflag
            | some bq =>
                obtain ⟨b, q⟩ := bq
                rw [hip] at hflag
                have hb : b = true := by simpa using hflag
                rw [finishAction_eq_pinned onFinished r.key p s b q hip hb]
                constructor
                · refine (disjointB_eq_true_iff _).mpr ?_
                  intro e he
                  exact hd2 e he
                · exact hn

/-- Witness for C4 at a state with one unpinned in-flight entry. -/
theorem adapter_invariant_preserved_w :
    nodupKeys sampleUnpinned.inProgress
    ∧ SingleFlight.disjointB sampleUnpinned = true
    ∧ ((SingleFlight.disjointB (SingleFlight.tryEmplace 1 sampleUnpinned 9).2 = true
        ∧ nodupKeys (SingleFlight.tryEmplace 1 sampleUnpinned 9).2.inProgress)
      ∧ (SingleFlight.disjointB
            (SingleFlight.Res.finish id sampleRes sampleUnpinned).1 = true
        ∧ nodupKeys
            (SingleFlight.Res.finish id sampleRes sampleUnpinned).1.inProgress)) :=
  ⟨by decide, by decide,
    adapter_invariant_preserved sampleUnpinned 1 9 id sampleRes (by decide) (by decide)⟩

/-- C5: a tryEmplace request with any requested pin flag for a key that is
already in flight merges the requested flag into the existing entry by
logical OR (so a pinned request upgrades an unpinned entry and a pinned
entry never becomes unpinned), returns an empty writable handle and a
read-only handle to the same in-flight shared value, and creates no new
value. -/
theorem tryEmplace_inflight_merge {K V : Type} [DecidableEq K] (pinned : Bool)
    (s : SingleFlight.AdapterState K V) (k : K) (b : Bool) (p : SingleFlight.Ptr)
    (v : V)
    (hip : alookup s.inProgress k = some (b, p))
    (hc : s.cache.contains k = false)
    (hp : s.cache.containsPinnedIncludingUpgrade k = false) :
    (SingleFlight.tryEmplaceImpl pinned k s v).1.todo = none
    ∧ (SingleFlight.tryEmplaceImpl pinned k s v).1.done = p
    ∧ alookup (SingleFlight.tryEmplaceImpl pinned k s v).2.inProgress k
        = some (b || pinned, p)
    ∧ (SingleFlight.tryEmplaceImpl pinned k s v).2.cache = s.cache
    ∧ (SingleFlight.tryEmplaceImpl pinned k s v).2.heap = s.heap
    ∧ (SingleFlight.tryEmplaceImpl pinned k s v).2.nextPtr = s.nextPtr := by
  have hif := containedFlag_eq_false pinned s k hc hp
  rw [tryEmplaceImpl_inflight pinned k s v b p hif hip]
  exact ⟨rfl, rfl, alookup_aset_self s.inProgress k (b || pinned, p), rfl, rfl, rfl⟩

/-- Witness for C5: a pinned request for the unpinned in-flight key 0
upgrades the entry to pinned. -/
theorem tryEmplace_inflight_merge_w :
    alookup sampleUnpinned.inProgress 0 = some (false, 5)
    ∧ sampleUnpinned.cache.contains 0 = false
    ∧ sampleUnpinned.cache.containsPinnedIncludingUpgrade 0 = false
    ∧ ((SingleFlight.tryEmplaceImpl true 0 sampleUnpinned 9).1.todo = none
      ∧ (SingleFlight.tryEmplaceImpl true 0 sampleUnpinned 9).1.done = 5
      ∧ alookup (SingleFlight.tryEmplaceImpl true 0 sampleUnpinned 9).2.inProgress 0
          = some (false || true, 5)
      ∧ (SingleFlight.tryEmplaceImpl true 0 sampleUnpinned 9).2.cache
          = sampleUnpinned.cache
      ∧ (SingleFlight.tryEmplaceImpl true 0 sampleUnpinned 9).2.heap
          = sampleUnpinned.heap
      ∧ (SingleFlight.tryEmplaceImpl true 0 sampleUnpinned 9).2.nextPtr
          = sampleUnpinned.nextPtr) :=
  ⟨by decide, by decide, by decide,
    tryEmplace_inflight_merge true sampleUnpinned 0 false 5 9
      (by decide) (by decide) (by decide)⟩

open SingleFlight in
theorem allUnpinned_iff {K V : Type} [DecidableEq K] (s : AdapterState K V) :
    allUnpinned s = true ↔ ∀ e ∈ s.inProgress, e.2.1 = false := by
  unfold allUnpinned
  rw [List.all_eq_true]
  constructor
  · intro h e he
    simpa using h e he
  · intro h e he
    simpa using h e he

open SingleFlight in
theorem allUnpinned_tryEmplace {K V : Type} [DecidableEq K] (k : K)
    (s : AdapterState K V) (v : V) (h : allUnpinned s = true) :
    allUnpinned (tryEmplace k s v).2 = true := by
  have h2 := (allUnpinned_iff s).mp h
  rw [tryEmplace_def]
  by_cases hc : s.cache.contains k = true
  · rw [tryEmplaceImpl_cached false k s v hc]
    exact h
  · have hc2 := contains_eq_false_of_ne_true s.cache k hc
    cases hip : alookup s.inProgress k with
    | none =>
        rw [tryEmplaceImpl_new false k s v hc2 hip]
        refine (allUnpinned_iff _).mpr ?_
        intro e he
        rcases mem_aset s.inProgress k (false, s.nextPtr) e he with h3 | h3
        · rw [h3]
        · exact h2 e h3
    | some bp =>
        obtain ⟨b, p⟩ := bp
        rw [tryEmplaceImpl_inflight false k s v b p hc2 hip]
        refine (allUnpinned_iff _).mpr ?_
        intro e he
        rcases mem_aset s.inProgress k (b || false, p) e he with h3 | h3
        · have hb : b = false := h2 (k, (b, p)) (alookup_mem s.inProgress k (b, p) hip)
          rw [h3]
          simp [hb]
        · exact h2 e h3

open SingleFlight in
theorem flag_false_of_allUnpinned {K V : Type} [DecidableEq K]
    (s : AdapterState K V) (k : K) (h : allUnpinned s = true) :
    ((alookup s.inProgress k).getD (false, 0)).1 = false := by
  have h2 := (allUnpinned_iff s).mp h
  cases hip : alookup s.inProgress k with
  | none => rfl
  | some bq =>
      obtain ⟨b, q⟩ := bq
      exact h2 (k, (b, q)) (alookup_mem s.inProgress k (b, q) hip)

open SingleFlight in
theorem finish_no_error_of_allUnpinned {K V : Type} [DecidableEq K] [Inhabited V]
    (onFinished : V → V) (r : Res K) (s : AdapterState K V)
    (h : allUnpinned s = true) :
    (Res.finish onFinished r s).2 = none := by
  cases hr : r.todo with
  | none =>
      have heq : Res.finish onFinished r s = (s, none) := by
        unfold Res.finish
        rw [hr]
      rw [heq]
  | some p =>
      have heq : Res.finish onFinished r s = finishAction onFinished r.key p s := by
        unfold Res.finish
        rw [hr]
      rw [heq, finishAction_eq_unpinned onFinished r.key p s
        (flag_false_of_allUnpinned s r.key h)]

open SingleFlight in
theorem allUnpinned_finish {K V : Type} [DecidableEq K] [Inhabited V]
    (onFinished : V → V) (r : Res K) (s : AdapterState K V)
    (h : allUnpinned s = true) :
    allUnpinned (Res.finish onFinished r s).1 = true := by
  have h2 := (allUnpinned_iff s).mp h
  cases hr : r.todo with
  | none =>
      have heq : Res.finish onFinished r s = (s, none) := by
        unfold Res.finish
        rw [hr]
      rw [heq]
      exact h
  | some p =>
      have heq : Res.finish onFinished r s = finishAction onFinished r.key p s := by
        unfold Res.finish
        rw [hr]
      rw [heq, finishAction_eq_unpinned onFinished r.key p s
        (flag_false_of_allUnpinned s r.key h)]
      refine (allUnpinned_iff _).mpr ?_
      intro e he
      exact h2 e (mem_aerase s.inProgress r.key e he)

open SingleFlight in
theorem allUnpinned_runOps {K V : Type} [DecidableEq K] [Inhabited V]
    (onFinished : V → V) (ops : List (Op K V)) (s : AdapterState K V)
    (h : allUnpinned s = true) :
    allUnpinned (runOps onFinished s ops) = true := by
  induction ops generalizing s with
  | nil => exact h
  | cons op rest ih =>
      cases op with
      | emplace k v => exact ih _ (allUnpinned_tryEmplace k s v h)
      | finishOp r => exact ih _ (allUnpinned_finish onFinished r s h)

open SingleFlight in
theorem tryEmplace_withPinned {K V : Type} [DecidableEq K] (k : K)
    (s : AdapterState K V) (v : V) (pk : List K) :
    tryEmplace k (withPinned s pk) v
      = ((tryEmplace k s v).1, withPinned (tryEmplace k s v).2 pk) := by
  rw [tryEmplace_def, tryEmplace_def]
  by_cases hc : s.cache.contains k = true
  · rw [tryEmplaceImpl_cached false k (withPinned s pk) v hc,
      tryEmplaceImpl_cached false k s v hc]
    rfl
  · have hc2 := contains_eq_false_of_ne_true s.cache k hc
    cases hip : alookup s.inProgress k with
    | none =>
        rw [tryEmplaceImpl_new false k (withPinned s pk) v hc2 hip,
          tryEmplaceImpl_new false k s v hc2 hip]
        rfl
    | some bp =>
        obtain ⟨b, p⟩ := bp
        rw [tryEmplaceImpl_inflight false k (withPinned s pk) v b p hc2 hip,
          tryEmplaceImpl_inflight false k s v b p hc2 hip]
        rfl

/-- C6: the public tryEmplace member always requests an unpinned entry (it
forwards pinned = false to tryEmplaceImpl), its outcome never depends on
the pinned-key component of the wrapped cache (so the pinned lookup
containsPinnedIncludingUpgrade is never consulted), every in-flight entry
produced by any sequence of public operations is unpinned, and finish on
any state reached through the public interface never takes the
not-implemented pinned-commit branch. -/
theorem public_interface_unpinned {K V : Type} [DecidableEq K] [Inhabited V]
    (onFinished : V → V) (ops : List (SingleFlight.Op K V)) (k : K) (v : V)
    (s : SingleFlight.AdapterState K V) (pk : List K) (r : SingleFlight.Res K) :
    SingleFlight.tryEmplace k s v = SingleFlight.tryEmplaceImpl false k s v
    ∧ SingleFlight.tryEmplace k (SingleFlight.withPinned s pk) v
        = ((SingleFlight.tryEmplace k s v).1,
           SingleFlight.withPinned (SingleFlight.tryEmplace k s v).2 pk)
    ∧ SingleFlight.allUnpinned
        (SingleFlight.runOps onFinished (SingleFlight.initialState K V) ops) = true
    ∧ (SingleFlight.Res.finish onFinished r
        (SingleFlight.runOps onFinished (SingleFlight.initialState K V) ops)).2
        = none := by
  refine ⟨rfl, tryEmplace_withPinned k s v pk, ?_, ?_⟩
  · exact allUnpinned_runOps onFinished ops _ rfl
  · exact finish_no_error_of_allUnpinned onFinished r _
      (allUnpinned_runOps onFinished ops _ rfl)

/-- C7: accessor error contract of MmapVector: on a handle whose mapping
is null both operator[] and at raise the uninitialized-array error; on an
open handle, at raises the out-of-range error exactly when the index
reaches size, while operator[] performs no bounds check against size and
yields the mapped slot. -/
theorem mmap_accessor_contract {T : Type} [Inhabited T] (v : Mmap.MmapVector T)
    (idx : Nat) :
    (v.ptr = none →
        v.opIndex idx = Except.error Mmap.MmapError.uninitializedArray
        ∧ v.atIdx idx = Except.error Mmap.MmapError.uninitializedArray)
    ∧ (∀ data, v.ptr = some data →
        ((v.atIdx idx = Except.error Mmap.MmapError.outOfRange) ↔ v.size ≤ idx)
        ∧ v.opIndex idx = Except.ok (data.getD idx default)) := by
  constructor
  · intro hp
    have h1 : v.throwIfUninitialized
        = Except.error Mmap.MmapError.uninitializedArray := by
      unfold Mmap.MmapVector.throwIfUninitialized
      rw [hp]
      rfl
    constructor
    · unfold Mmap.MmapVector.opIndex
      rw [h1]
    · unfold Mmap.MmapVector.atIdx
      rw [h1]
  · intro data hp
    have h1 : v.throwIfUninitialized = Except.ok () := by
      unfold Mmap.MmapVector.throwIfUninitialized
      rw [hp]
      rfl
    constructor
    · unfold Mmap.MmapVector.atIdx
      rw [h1]
      by_cases hs : v.size ≤ idx
      · rw [if_pos hs]
        simp [hs]
      · rw [if_neg hs]
        simp [hs]
    · unfold Mmap.MmapVector.opIndex
      rw [h1, hp]
      rfl

/-- Witness for C7 at a closed handle and at an open two-element handle
probed past its size. -/
theorem mmap_accessor_contract_w :
    (closedVec.opIndex 3 = Except.error Mmap.MmapError.uninitializedArray
      ∧ closedVec.atIdx 3 = Except.error Mmap.MmapError.uninitializedArray)
    ∧ (((openVec.atIdx 5 = Except.error Mmap.MmapError.outOfRange)
          ↔ openVec.size ≤ 5)
      ∧ openVec.opIndex 5 = Except.ok (([10, 20]).getD 5 default)) :=
  ⟨(mmap_accessor_contract closedVec 3).1 rfl,
   (mmap_accessor_contract openVec 5).2 [10, 20] rfl⟩

open Mmap in
theorem convert_capacity_ge (elementSize targetSize : Nat) (hes : 0 < elementSize) :
    targetSize ≤ (convertArraySizeToFileSize elementSize targetSize).capacity := by
  unfold convertArraySizeToFileSize
  simp only [pageSize]
  rw [Nat.le_div_iff_mul_le hes]
  omega

/-- C8: reserve is a no-op (the whole handle, so size, capacity, bytesize,
mapping and stored elements, is unchanged) when the requested capacity does
not exceed the current one; otherwise it grows the capacity to at least the
request. -/
theorem reserve_contract {T : Type} [Inhabited T] (elementSize : Nat)
    (v : Mmap.MmapVector T) (n : Nat) (hes : 0 < elementSize) :
    (n ≤ v.capacity → v.reserve elementSize n = v)
    ∧ (v.capacity < n → n ≤ (v.reserve elementSize n).capacity) := by
  constructor
  · intro h
    unfold Mmap.MmapVector.reserve
    rw [if_neg (Nat.not_lt.mpr h)]
  · intro h
    unfold Mmap.MmapVector.reserve
    rw [if_pos h]
    have heq : (v.adaptCapacity elementSize n).capacity
        = (Mmap.convertArraySizeToFileSize elementSize n).capacity := rfl
    rw [heq]
    exact convert_capacity_ge elementSize n hes

/-- Witness for C8: element size 8 on the open two-element handle, with a
request inside and a request beyond the current capacity. -/
theorem reserve_contract_w :
    0 < 8
    ∧ (1 ≤ openVec.capacity ∧ openVec.reserve 8 1 = openVec)
    ∧ (openVec.capacity < 300 ∧ 300 ≤ (openVec.reserve 8 300).capacity) :=
  ⟨by decide,
   ⟨by decide, (reserve_contract 8 openVec 1 (by decide)).1 (by decide)⟩,
   ⟨by decide, (reserve_contract 8 openVec 300 (by decide)).2 (by decide)⟩⟩

/-- C9: destruction of an MmapVectorTmp never lets an exception escape
(close runs inside the termination-safe wrapper), and after the close
sequence the backing file is deleted exactly when the handle still carries
a non-empty filename: an owning handle deletes precisely its own backing
file and a moved-from handle deletes nothing. -/
theorem tmp_dtor_contract {T : Type} (v : Mmap.MmapVector T)
    (outcome : Mmap.CloseOutcome) :
    (Mmap.mmapVectorTmpDtor v outcome).exceptionEscaped = false
    ∧ (v.filename ≠ "" →
        (Mmap.mmapVectorTmpDtor v outcome).deletedFile = some v.filename)
    ∧ (v.filename = "" →
        (Mmap.mmapVectorTmpDtor v outcome).deletedFile = none)
    ∧ (Mmap.mmapVectorTmpDtor (Mmap.MmapVector.moveFrom v).2 outcome).deletedFile
        = none := by
  refine ⟨rfl, ?_, ?_, ?_⟩
  · intro h
    unfold Mmap.mmapVectorTmpDtor
    simp [h]
  · intro h
    unfold Mmap.mmapVectorTmpDtor
    simp [h]
  · unfold Mmap.mmapVectorTmpDtor Mmap.MmapVector.moveFrom
    simp

/-- Witness for C9 at the open handle with backing file f and a throwing
close. -/
theorem tmp_dtor_contract_w :
    openVec.filename ≠ ""
    ∧ (Mmap.mmapVectorTmpDtor openVec Mmap.CloseOutcome.threw).exceptionEscaped
        = false
    ∧ (Mmap.mmapVectorTmpDtor openVec Mmap.CloseOutcome.threw).deletedFile
        = some openVec.filename
    ∧ (Mmap.mmapVectorTmpDtor (Mmap.MmapVector.moveFrom openVec).2
        Mmap.CloseOutcome.threw).deletedFile = none :=
  ⟨by decide,
   (tmp_dtor_contract openVec Mmap.CloseOutcome.threw).1,
   (tmp_dtor_contract openVec Mmap.CloseOutcome.threw).2.1 (by decide),
   (tmp_dtor_contract openVec Mmap.CloseOutcome.threw).2.2.2⟩

open Mmap in
theorem push_back_ptr_isSome {T : Type} [Inhabited T] (elementSize : Nat)
    (v : MmapVector T) (el : T) (h : v.ptr.isSome = true) :
    (v.push_back elementSize el).ptr.isSome = true := by
  unfold MmapVector.push_back
  simp only [Option.isSome_map']
  by_cases hsz : (v.size == v.capacity) = true
  · rw [if_pos hsz]
    unfold MmapVector.adaptCapacity
    simp only [Option.isSome_map']
    exact h
  · rw [if_neg hsz]
    exact h

open Mmap in
theorem foldl_push_back_ptr_isSome {T : Type} [Inhabited T] (elementSize : Nat)
    (elems : List T) (v : MmapVector T) (h : v.ptr.isSome = true) :
    (elems.foldl (fun w el => w.push_back elementSize el) v).ptr.isSome = true := by
  induction elems generalizing v with
  | nil => exact h
  | cons e rest ih => exact ih _ (push_back_ptr_isSome elementSize v e h)

open Mmap in
theorem buildVector_ptr_isSome {T : Type} [Inhabited T] (elementSize : Nat)
    (elems : List T) (filename : String) :
    (buildVector elementSize elems filename).ptr.isSome = true := by
  unfold buildVector
  exact foldl_push_back_ptr_isSome elementSize elems _ rfl

open Mmap in
theorem openReuse_close {T : Type} (v : MmapVector T) (fn : String) :
    openReuse v.close.1 fn
      = Except.ok { ptr := some (v.ptr.getD []), size := v.size,
                    capacity := v.capacity, bytesize := v.bytesize,
                    filename := fn, pattern := AccessPattern.none } := by
  unfold openReuse MmapVector.close
  simp

/-- C10: persistence round-trip: creating an array on a file, pushing a
sequence of elements, closing (which writes the trailer with the magic
number and version) and reuse-opening the written file succeeds and yields
a vector with identical size, capacity and mapped elements. -/
theorem mmap_round_trip {T : Type} [Inhabited T] (elementSize : Nat)
    (elems : List T) (filename newFilename : String) :
    ∃ v2 : Mmap.MmapVector T,
      Mmap.openReuse (Mmap.buildVector elementSize elems filename).close.1
          newFilename = Except.ok v2
      ∧ v2.size = (Mmap.buildVector elementSize elems filename).size
      ∧ v2.capacity = (Mmap.buildVector elementSize elems filename).capacity
      ∧ v2.ptr = (Mmap.buildVector elementSize elems filename).ptr := by
  obtain ⟨d, hd⟩ := Option.isSome_iff_exists.mp
    (buildVector_ptr_isSome elementSize elems filename)
  refine ⟨_, openReuse_close (Mmap.buildVector elementSize elems filename)
    newFilename, rfl, rfl, ?_⟩
  show some ((Mmap.buildVector elementSize elems filename).ptr.getD [])
      = (Mmap.buildVector elementSize elems filename).ptr
  rw [hd]
  rfl

end QleverSpec
